import Mathlib

set_option maxRecDepth 40000

/-!
# Shamir secret sharing (`secretsharing.py`): shallow embedding

The source is the class `Shamir`, built on the `galois` library's finite
fields `GF(order)`.  The embedding below is parametric in a Lean `Field F`
for the field-level core (`Shamir.reveal` works entirely on field elements
once the input integers are lifted), and is instantiated at `ZMod p`
(`p` prime) for the integer boundary, where the galois lift of an integer
`v ∈ [0, p)` coincides with `Nat.cast`.

Modelling decisions taken from the `galois` library's documented semantics:

* `int * FieldElement` (as in `x ** index * val` inside `Shamir.__poly`,
  where `x ** index` is a plain Python integer) is *scalar* multiplication,
  i.e. repeated addition; it is modelled by the `ℕ`-scalar action `• : ℕ → F → F`.
* Converting integers into the field (`self.__gf(secret)`, `self.__gf(shares)`)
  raises `ValueError` when a value lies outside `[0, order)`.
* Field division by the additive identity raises `ZeroDivisionError`.
* `x, y = zip(*self.__gf(shares))` raises `ValueError` (unpacking) when
  `shares` is empty.
* `coeffs[k - 1] = self.__gf(secret)` raises `IndexError` on the empty
  array produced by `Random(0)` when `k = 0` (after the secret was lifted).

Randomness: `coeffs = self.__gf.Random(k)` is modelled by an explicit
parameter `rand : List F` of length `k`, so every theorem quantifies over
the draw of the random coefficients.
-/

namespace Shamir

/-- The Python exception types the source can raise, used as the error
component of `Except`. -/
inductive PyError
  | valueError
  | indexError
  | zeroDivisionError
deriving DecidableEq

/-- `Shamir.__poly(x, coeffs)`: starting from `y = gf(0)`, iterate
`y += x ** index * val` over `enumerate(coeffs[::-1])`.  Here `x` is the
plain Python integer evaluation point, so `x ** index` is integer
exponentiation and the multiplication with the field element `val` is the
galois scalar (repeated-addition) product, i.e. `(x ^ index) • val`. -/
def polyEval {F : Type} [Field F] (coeffs : List F) (x : ℕ) : F :=
  (coeffs.reverse.enum).foldl (fun y iv => y + (x ^ iv.1) • iv.2) 0

/-- The body of `Shamir.share` after the secret has been lifted into the
field: `coeffs = Random(k)` with `coeffs[k-1] = secret` is
`rand.set (k - 1) secret`, and the result is
`[(x, __poly(x, coeffs)) for x in range(1, n + 1)]`, with the y-value kept
as a field element. -/
def shareF {F : Type} [Field F] (rand : List F) (k n : ℕ) (secret : F) :
    List (ℕ × F) :=
  (List.range' 1 n).map (fun x => (x, polyEval (rand.set (k - 1) secret) x))

/-- `Shamir.share(k, n, secret)` at the integer boundary over the prime
field `GF(p) = ZMod p`: `self.__gf(secret)` raises `ValueError` when
`secret` is out of range, `coeffs[k - 1]` raises `IndexError` on the empty
array when `k = 0`, and each share's y-value is `int(...)` of the field
element, i.e. `ZMod.val`. -/
def shareZ (p : ℕ) [Fact p.Prime] (rand : List (ZMod p)) (k n : ℕ)
    (secret : ℕ) : Except PyError (List (ℕ × ℕ)) :=
  if p ≤ secret then .error .valueError
  else if k = 0 then .error .indexError
  else .ok ((shareF rand k n (secret : ZMod p)).map (fun s => (s.1, s.2.val)))

/-- The `denominator` accumulated by `Shamir.reveal`'s inner loop for index
`i`: starting from `gf(1)`, multiply by `x[i] - x[j]` for every `j ≠ i` in
`range(len(x))`. -/
def lagrangeDenom {F : Type} [Field F] [DecidableEq F] (x : List F)
    (m i : ℕ) : F :=
  (List.range m).foldl
    (fun d j => if i = j then d else d * (x.getD i 0 - x.getD j 0)) 1

/-- One iteration of `Shamir.reveal`'s outer loop:
`li = (product / x[i]) / denominator; sums += y[i] * li`, where galois
division raises `ZeroDivisionError` when the divisor (`x[i]`, then
`denominator`) is the additive identity. -/
def revealStep {F : Type} [Field F] [DecidableEq F] (x y : List F) (m : ℕ)
    (product : F) (sums : F) (i : ℕ) : Except PyError F :=
  if x.getD i 0 = 0 then .error .zeroDivisionError
  else if lagrangeDenom x m i = 0 then .error .zeroDivisionError
  else .ok (sums + y.getD i 0 * (product / x.getD i 0 / lagrangeDenom x m i))

/-- `Shamir.reveal` on field-element pairs (after `self.__gf(shares)`):
unpacking the empty list raises `ValueError`; otherwise `product` is the
running product of all `x`-coordinates and the outer loop accumulates
`sums`, returning it when no division failed. -/
def revealF {F : Type} [Field F] [DecidableEq F] (shares : List (F × F)) :
    Except PyError F :=
  if shares.isEmpty then .error .valueError
  else
    (List.range shares.length).foldlM
      (revealStep (shares.map Prod.fst) (shares.map Prod.snd) shares.length
        ((shares.map Prod.fst).foldl (· * ·) 1)) 0

/-- `Shamir.reveal(shares)` at the integer boundary over `GF(p) = ZMod p`:
`self.__gf(shares)` raises `ValueError` when any coordinate lies outside
`[0, p)`, and the final `int(sums)` is `ZMod.val`. -/
def revealZ (p : ℕ) [Fact p.Prime] (shares : List (ℕ × ℕ)) :
    Except PyError ℕ :=
  if shares.all (fun s => s.1 < p && s.2 < p) then
    (revealF (shares.map (fun s => ((s.1 : ZMod p), (s.2 : ZMod p))))).map
      ZMod.val
  else .error .valueError

/-- Modelled from the spec (§4.2), for the refinement claim about the
numerator shortcut: the *direct* Lagrange interpolation at 0,
`secret = Σᵢ yᵢ · lᵢ(0)` with `lᵢ(0) = ∏_{j≠i}(−xⱼ) / ∏_{j≠i}(xᵢ−xⱼ)`,
with no precomputed full product. -/
def revealDirect {F : Type} [Field F] (shares : List (F × F)) : F :=
  ∑ i ∈ Finset.range shares.length,
    (shares.map Prod.snd).getD i 0 *
      ((∏ j ∈ (Finset.range shares.length).erase i,
          -((shares.map Prod.fst).getD j 0)) /
        (∏ j ∈ (Finset.range shares.length).erase i,
          ((shares.map Prod.fst).getD i 0 - (shares.map Prod.fst).getD j 0)))

deriving instance DecidableEq for Except

/-- Modelled from the spec, with computable division for concrete
evaluation: `revealDirect` over `ZMod p` with `a / b` replaced by
`a * b ^ (p - 2)`. -/
def revealDirectP (p : ℕ) [Fact p.Prime] (shares : List (ZMod p × ZMod p)) :
    ZMod p :=
  ∑ i ∈ Finset.range shares.length,
    (shares.map Prod.snd).getD i 0 *
      ((∏ j ∈ (Finset.range shares.length).erase i,
          -((shares.map Prod.fst).getD j 0)) *
        (∏ j ∈ (Finset.range shares.length).erase i,
          ((shares.map Prod.fst).getD i 0 - (shares.map Prod.fst).getD j 0))
          ^ (p - 2))

instance fact_prime_two : Fact (Nat.Prime 2) := ⟨by norm_num⟩

instance fact_prime_three : Fact (Nat.Prime 3) := ⟨by norm_num⟩

instance fact_prime_five : Fact (Nat.Prime 5) := ⟨by norm_num⟩

instance fact_prime_251 : Fact (Nat.Prime 251) := ⟨by norm_num⟩

/-- In `ZMod p` (`p ≥ 3` prime) the inverse is `b ^ (p - 2)`; unlike `⁻¹`
(which runs the extended gcd by well-founded recursion) the power evaluates
by kernel reduction, so concrete instances can be settled by `decide`. -/
lemma zmod_inv_eq_pow (p : ℕ) [Fact p.Prime] (hp : 3 ≤ p) (b : ZMod p) :
    b⁻¹ = b ^ (p - 2) := by
  by_cases hb : b = 0
  · subst hb
    rw [ZMod.inv_zero, zero_pow (by omega)]
  · apply inv_eq_of_mul_eq_one_right
    have h1 : b * b ^ (p - 2) = b ^ (p - 2 + 1) := (pow_succ' b (p - 2)).symm
    rw [h1, show p - 2 + 1 = p - 1 by omega, ZMod.pow_card_sub_one_eq_one hb]

/-- `revealStep` with each division `a / b` replaced by the
kernel-computable `a * b ^ (p - 2)`; used only to evaluate concrete
instances. -/
def revealStepP (p : ℕ) [Fact p.Prime] (x y : List (ZMod p)) (m : ℕ)
    (product sums : ZMod p) (i : ℕ) : Except PyError (ZMod p) :=
  if x.getD i 0 = 0 then .error .zeroDivisionError
  else if lagrangeDenom x m i = 0 then .error .zeroDivisionError
  else .ok (sums + y.getD i 0 *
    (product * x.getD i 0 ^ (p - 2) * lagrangeDenom x m i ^ (p - 2)))

/-- `revealF` over `ZMod p` with computable division (see `revealStepP`). -/
def revealFP (p : ℕ) [Fact p.Prime] (shares : List (ZMod p × ZMod p)) :
    Except PyError (ZMod p) :=
  if shares.isEmpty then .error .valueError
  else
    (List.range shares.length).foldlM
      (revealStepP p (shares.map Prod.fst) (shares.map Prod.snd)
        shares.length ((shares.map Prod.fst).foldl (· * ·) 1)) 0

/-- `revealZ` with computable division (see `revealStepP`). -/
def revealZP (p : ℕ) [Fact p.Prime] (shares : List (ℕ × ℕ)) :
    Except PyError ℕ :=
  if shares.all (fun s => s.1 < p && s.2 < p) then
    (revealFP p (shares.map (fun s => ((s.1 : ZMod p), (s.2 : ZMod p))))).map
      ZMod.val
  else .error .valueError

lemma revealStep_eq_revealStepP (p : ℕ) [Fact p.Prime] (hp : 3 ≤ p)
    (x y : List (ZMod p)) (m : ℕ) (P : ZMod p) :
    revealStep x y m P = revealStepP p x y m P := by
  funext s i
  unfold revealStep revealStepP
  rw [div_eq_mul_inv, div_eq_mul_inv, zmod_inv_eq_pow p hp,
    zmod_inv_eq_pow p hp]

lemma revealF_eq_revealFP (p : ℕ) [Fact p.Prime] (hp : 3 ≤ p)
    (shares : List (ZMod p × ZMod p)) : revealF shares = revealFP p shares := by
  unfold revealF revealFP
  rw [revealStep_eq_revealStepP p hp]

lemma revealZ_eq_revealZP (p : ℕ) [Fact p.Prime] (hp : 3 ≤ p)
    (shares : List (ℕ × ℕ)) : revealZ p shares = revealZP p shares := by
  unfold revealZ revealZP
  rw [revealF_eq_revealFP p hp]


/-- If every index in `l` passes both zero-divisor checks, the monadic fold
of `revealStep` succeeds and computes the plain fold of the loop body. -/
lemma foldlM_revealStep_ok {F : Type} [Field F] [DecidableEq F]
    (x y : List F) (m : ℕ) (P : F) (l : List ℕ) (a : F)
    (h : ∀ i ∈ l, x.getD i 0 ≠ 0 ∧ lagrangeDenom x m i ≠ 0) :
    l.foldlM (revealStep x y m P) a =
      .ok (l.foldl
        (fun s i => s + y.getD i 0 * (P / x.getD i 0 / lagrangeDenom x m i))
        a) := by
  induction l generalizing a with
  | nil => rfl
  | cons i l ih =>
    have hi := h i (List.mem_cons_self i l)
    have hstep : revealStep x y m P a i =
        .ok (a + y.getD i 0 * (P / x.getD i 0 / lagrangeDenom x m i)) := by
      unfold revealStep
      rw [if_neg hi.1, if_neg hi.2]
    rw [List.foldlM_cons, List.foldl_cons, hstep]
    exact ih _ (fun j hj => h j (List.mem_cons_of_mem _ hj))

/-- Conversely, if the monadic fold of `revealStep` succeeded, every index
it visited passed both zero-divisor checks. -/
lemma foldlM_revealStep_ok_imp {F : Type} [Field F] [DecidableEq F]
    (x y : List F) (m : ℕ) (P : F) (l : List ℕ) (a v : F)
    (h : l.foldlM (revealStep x y m P) a = .ok v) :
    ∀ i ∈ l, x.getD i 0 ≠ 0 ∧ lagrangeDenom x m i ≠ 0 := by
  induction l generalizing a with
  | nil => intro i hi; cases hi
  | cons j l ih =>
    rw [List.foldlM_cons] at h
    by_cases hx : x.getD j 0 = 0
    · exfalso
      unfold revealStep at h
      rw [if_pos hx] at h
      exact Except.noConfusion h
    · by_cases hd : lagrangeDenom x m j = 0
      · exfalso
        unfold revealStep at h
        rw [if_neg hx, if_pos hd] at h
        exact Except.noConfusion h
      · have hstep : revealStep x y m P a j =
            .ok (a + y.getD j 0 *
              (P / x.getD j 0 / lagrangeDenom x m j)) := by
          unfold revealStep
          rw [if_neg hx, if_neg hd]
        rw [hstep] at h
        intro i hi
        rcases List.mem_cons.mp hi with rfl | hi'
        · exact ⟨hx, hd⟩
        · exact ih _ h i hi'

/-- The only error the reveal loop can produce is `ZeroDivisionError`. -/
lemma foldlM_revealStep_error_eq {F : Type} [Field F] [DecidableEq F]
    (x y : List F) (m : ℕ) (P : F) (l : List ℕ) (a : F) (e : PyError)
    (h : l.foldlM (revealStep x y m P) a = .error e) :
    e = .zeroDivisionError := by
  induction l generalizing a with
  | nil => exact Except.noConfusion h
  | cons j l ih =>
    rw [List.foldlM_cons] at h
    by_cases hx : x.getD j 0 = 0
    · unfold revealStep at h
      rw [if_pos hx] at h
      have h' : (Except.error PyError.zeroDivisionError : Except PyError F) =
          .error e := h
      exact (Except.error.inj h').symm
    · by_cases hd : lagrangeDenom x m j = 0
      · unfold revealStep at h
        rw [if_neg hx, if_pos hd] at h
        have h' : (Except.error PyError.zeroDivisionError :
            Except PyError F) = .error e := h
        exact (Except.error.inj h').symm
      · have hstep : revealStep x y m P a j =
            .ok (a + y.getD j 0 *
              (P / x.getD j 0 / lagrangeDenom x m j)) := by
          unfold revealStep
          rw [if_neg hx, if_neg hd]
        rw [hstep] at h
        exact ih _ h

/-- A left fold of additions is the starting value plus a list sum. -/
lemma list_foldl_add_eq {F : Type} [Field F] (g : ℕ → F) :
    ∀ (l : List ℕ) (a : F),
      l.foldl (fun s i => s + g i) a = a + (l.map g).sum := by
  intro l
  induction l with
  | nil => intro a; simp
  | cons j l ih =>
    intro a
    rw [List.foldl_cons, ih, List.map_cons, List.sum_cons, add_assoc]

/-- A left fold of multiplications that skips index `i` is the starting
value times the product with the skipped factor replaced by `1`. -/
lemma list_foldl_skip_mul_eq {F : Type} [Field F] (f : ℕ → F) (i : ℕ) :
    ∀ (l : List ℕ) (a : F),
      l.foldl (fun d j => if i = j then d else d * f j) a =
        a * (l.map (fun j => if i = j then 1 else f j)).prod := by
  intro l
  induction l with
  | nil => intro a; simp
  | cons j l ih =>
    intro a
    rw [List.foldl_cons, List.map_cons, List.prod_cons]
    by_cases hij : i = j
    · rw [if_pos hij, if_pos hij, ih, one_mul]
    · rw [if_neg hij, if_neg hij, ih, mul_assoc]

/-- Sum of `g` over `List.range m` is the `Finset.range` sum. -/
lemma map_range_sum_eq {F : Type} [Field F] (g : ℕ → F) (m : ℕ) :
    ((List.range m).map g).sum = ∑ i ∈ Finset.range m, g i := by
  induction m with
  | zero => simp
  | succ m ih =>
    rw [List.range_succ, List.map_append, List.sum_append,
      Finset.sum_range_succ, ih]
    simp

/-- Product of `g` over `List.range m` is the `Finset.range` product. -/
lemma map_range_prod_eq {F : Type} [Field F] (g : ℕ → F) (m : ℕ) :
    ((List.range m).map g).prod = ∏ i ∈ Finset.range m, g i := by
  induction m with
  | zero => simp
  | succ m ih =>
    rw [List.range_succ, List.map_append, List.prod_append,
      Finset.prod_range_succ, ih]
    simp

/-- The loop-computed denominator is the mathematical product
`∏_{j≠i} (xᵢ − xⱼ)`. -/
lemma lagrangeDenom_eq_prod {F : Type} [Field F] [DecidableEq F]
    (x : List F) (m i : ℕ) :
    lagrangeDenom x m i =
      ∏ j ∈ (Finset.range m).erase i, (x.getD i 0 - x.getD j 0) := by
  unfold lagrangeDenom
  rw [list_foldl_skip_mul_eq (fun j => x.getD i 0 - x.getD j 0) i
    (List.range m) 1, one_mul, map_range_prod_eq]
  have herase :
      ∏ j ∈ (Finset.range m).erase i,
        (if i = j then (1 : F) else x.getD i 0 - x.getD j 0) =
      ∏ j ∈ Finset.range m,
        (if i = j then (1 : F) else x.getD i 0 - x.getD j 0) :=
    Finset.prod_erase (Finset.range m) (by simp)
  rw [← herase]
  apply Finset.prod_congr rfl
  intro j hj
  exact if_neg (fun hij => Finset.ne_of_mem_erase hj hij.symm)

/-- The loop-computed full product of the `x`-coordinates. -/
lemma foldl_mul_prod {F : Type} [Field F] (x : List F) :
    x.foldl (· * ·) 1 = ∏ j ∈ Finset.range x.length, x.getD j 0 := by
  rw [← List.prod_eq_foldl, ← map_range_prod_eq]
  congr 1
  apply List.ext_getElem (by simp)
  intro i h1 h2
  simp only [List.getElem_map, List.getElem_range]
  rw [List.getD_eq_getElem]

/-- Indexing the mapped first coordinates. -/
lemma getD_map_fst {F : Type} [Field F] (shares : List (F × F)) (i : ℕ)
    (hi : i < shares.length) :
    (shares.map Prod.fst).getD i 0 = (shares[i]).1 := by
  have hlen : i < (shares.map Prod.fst).length := by simpa using hi
  rw [List.getD_eq_getElem _ _ hlen, List.getElem_map]

/-- Indexing the mapped second coordinates. -/
lemma getD_map_snd {F : Type} [Field F] (shares : List (F × F)) (i : ℕ)
    (hi : i < shares.length) :
    (shares.map Prod.snd).getD i 0 = (shares[i]).2 := by
  have hlen : i < (shares.map Prod.snd).length := by simpa using hi
  rw [List.getD_eq_getElem _ _ hlen, List.getElem_map]

/-- With non-zero, pairwise-distinct `x`-coordinates, every index passes
both zero-divisor checks of the reveal loop. -/
lemma reveal_checks {F : Type} [Field F] [DecidableEq F]
    (shares : List (F × F))
    (h0 : ∀ s ∈ shares, s.1 ≠ 0)
    (hdist : List.Pairwise (fun s t => s.1 ≠ t.1) shares) :
    ∀ i ∈ List.range shares.length,
      (shares.map Prod.fst).getD i 0 ≠ 0 ∧
        lagrangeDenom (shares.map Prod.fst) shares.length i ≠ 0 := by
  intro i hi
  have him : i < shares.length := List.mem_range.mp hi
  constructor
  · rw [getD_map_fst shares i him]
    exact h0 _ (List.getElem_mem him)
  · rw [lagrangeDenom_eq_prod]
    apply Finset.prod_ne_zero_iff.mpr
    intro j hj
    have hjm : j < shares.length :=
      List.mem_range.mp (Finset.mem_of_mem_erase hj)
    have hji : j ≠ i := Finset.ne_of_mem_erase hj
    rw [getD_map_fst shares i him, getD_map_fst shares j hjm]
    apply sub_ne_zero.mpr
    rcases Nat.lt_or_ge i j with hij | hij
    · exact List.pairwise_iff_getElem.mp hdist i j him hjm hij
    · exact
        (List.pairwise_iff_getElem.mp hdist j i hjm him
          (lt_of_le_of_ne hij hji)).symm

/-- Under the contract of `Shamir.reveal` (non-empty shares, non-zero and
pairwise-distinct `x`-coordinates) the loop completes and returns the sum
`Σᵢ yᵢ · ((∏ⱼ xⱼ) / xᵢ) / ∏_{j≠i}(xᵢ − xⱼ)`. -/
lemma revealF_ok_sum {F : Type} [Field F] [DecidableEq F]
    (shares : List (F × F)) (hne : shares ≠ [])
    (h0 : ∀ s ∈ shares, s.1 ≠ 0)
    (hdist : List.Pairwise (fun s t => s.1 ≠ t.1) shares) :
    revealF shares = .ok (∑ i ∈ Finset.range shares.length,
      (shares.map Prod.snd).getD i 0 *
        ((shares.map Prod.fst).foldl (· * ·) 1 /
            (shares.map Prod.fst).getD i 0 /
          lagrangeDenom (shares.map Prod.fst) shares.length i)) := by
  unfold revealF
  rw [if_neg (by simp [List.isEmpty_iff, hne])]
  rw [foldlM_revealStep_ok _ _ _ _ _ _ (reveal_checks shares h0 hdist)]
  congr 1
  rw [list_foldl_add_eq, zero_add, map_range_sum_eq]

/-- C3 (amended).  The shortcut-based `reveal` does not reproduce the
direct computation for all characteristics: on `m` shares with non-zero,
pairwise-distinct `x`-coordinates it returns `(−1)^(m−1)` times the direct
Lagrange interpolation at 0 (so the two agree exactly when the field has
characteristic 2 or `m` is odd, and differ otherwise whenever the direct
value is non-zero and `2 ≠ 0`). -/
theorem revealF_eq_sign_mul_revealDirect {F : Type} [Field F]
    [DecidableEq F] (shares : List (F × F)) (hne : shares ≠ [])
    (h0 : ∀ s ∈ shares, s.1 ≠ 0)
    (hdist : List.Pairwise (fun s t => s.1 ≠ t.1) shares) :
    revealF shares =
      .ok ((-1) ^ (shares.length - 1) * revealDirect shares) := by
  rw [revealF_ok_sum shares hne h0 hdist]
  congr 1
  unfold revealDirect
  rw [Finset.mul_sum]
  apply Finset.sum_congr rfl
  intro i hi
  have him : i < shares.length := List.mem_range.mp hi
  have hxi : (shares.map Prod.fst).getD i 0 ≠ 0 :=
    ((reveal_checks shares h0 hdist) i hi).1
  have hP : (shares.map Prod.fst).foldl (· * ·) 1 =
      ∏ j ∈ Finset.range shares.length, (shares.map Prod.fst).getD j 0 := by
    rw [foldl_mul_prod, List.length_map]
  have hdiv :
      (∏ j ∈ Finset.range shares.length, (shares.map Prod.fst).getD j 0) /
          (shares.map Prod.fst).getD i 0 =
        ∏ j ∈ (Finset.range shares.length).erase i,
          (shares.map Prod.fst).getD j 0 := by
    rw [← Finset.prod_erase_mul (Finset.range shares.length)
      (fun j => (shares.map Prod.fst).getD j 0) (Finset.mem_range.mpr him)]
    rw [mul_div_cancel_right₀ _ hxi]
  have hneg :
      (∏ j ∈ (Finset.range shares.length).erase i,
          -((shares.map Prod.fst).getD j 0)) =
        (-1 : F) ^ (shares.length - 1) *
          ∏ j ∈ (Finset.range shares.length).erase i,
            (shares.map Prod.fst).getD j 0 := by
    have h1 : ∀ j ∈ (Finset.range shares.length).erase i,
        -((shares.map Prod.fst).getD j 0) =
          (-1 : F) * (shares.map Prod.fst).getD j 0 := by
      intro j hj
      rw [neg_one_mul]
    rw [Finset.prod_congr rfl h1, Finset.prod_mul_distrib, Finset.prod_const,
      Finset.card_erase_of_mem (Finset.mem_range.mpr him), Finset.card_range]
  have hc : (-1 : F) ^ (shares.length - 1) *
      (-1 : F) ^ (shares.length - 1) = 1 := by
    rw [← mul_pow]
    norm_num
  rw [lagrangeDenom_eq_prod, hP, hdiv, hneg, mul_div_assoc]
  have hre : (-1 : F) ^ (shares.length - 1) *
      ((shares.map Prod.snd).getD i 0 * ((-1 : F) ^ (shares.length - 1) *
        ((∏ j ∈ (Finset.range shares.length).erase i,
            (shares.map Prod.fst).getD j 0) /
          (∏ j ∈ (Finset.range shares.length).erase i,
            ((shares.map Prod.fst).getD i 0 -
              (shares.map Prod.fst).getD j 0))))) =
      ((-1 : F) ^ (shares.length - 1) * (-1 : F) ^ (shares.length - 1)) *
        ((shares.map Prod.snd).getD i 0 *
          ((∏ j ∈ (Finset.range shares.length).erase i,
              (shares.map Prod.fst).getD j 0) /
            (∏ j ∈ (Finset.range shares.length).erase i,
              ((shares.map Prod.fst).getD i 0 -
                (shares.map Prod.fst).getD j 0)))) := by
    ring
  rw [hre, hc, one_mul]

lemma revealDirect_eq_revealDirectP (p : ℕ) [Fact p.Prime] (hp : 3 ≤ p)
    (shares : List (ZMod p × ZMod p)) :
    revealDirect shares = revealDirectP p shares := by
  unfold revealDirect revealDirectP
  apply Finset.sum_congr rfl
  intro i hi
  rw [div_eq_mul_inv, zmod_inv_eq_pow p hp]

/-- With a valid secret and `k ≥ 1`, `shareZ` reaches the share-building
branch. -/
lemma shareZ_ok (p : ℕ) [Fact p.Prime] (rand : List (ZMod p)) (k n : ℕ)
    (secret : ℕ) (hk : k ≠ 0) (hs : secret < p) :
    shareZ p rand k n secret =
      .ok ((shareF rand k n ((secret : ZMod p))).map
        (fun s => (s.1, s.2.val))) := by
  unfold shareZ
  rw [if_neg (by omega), if_neg hk]

/-- The evaluation points emitted by `share` are exactly `1, …, n`. -/
lemma shareF_map_fst {F : Type} [Field F] (rand : List F) (k n : ℕ)
    (secret : F) :
    (shareF rand k n secret).map Prod.fst = List.range' 1 n := by
  unfold shareF
  rw [List.map_map]
  exact List.map_id _

/-- `__poly` on the constant polynomial `[a]` returns `a` at every point
(the `k = 1` case, where the secret is the only coefficient). -/
lemma polyEval_singleton {F : Type} [Field F] (a : F) (x : ℕ) :
    polyEval [a] x = a := by
  show (0 : F) + x ^ 0 • a = a
  simp

/-- When every coordinate is in range, `revealZ` is the field-level
`revealF` on the lifted shares followed by `int(...)`. -/
lemma revealZ_of_inrange (p : ℕ) [Fact p.Prime] (shares : List (ℕ × ℕ))
    (hrange : ∀ s ∈ shares, s.1 < p ∧ s.2 < p) :
    revealZ p shares =
      (revealF (shares.map (fun s => ((s.1 : ZMod p), (s.2 : ZMod p))))).map
        ZMod.val := by
  unfold revealZ
  rw [if_pos]
  rw [List.all_eq_true]
  intro s hs
  have h := hrange s hs
  simp [h.1, h.2]

/-- If some index of a non-empty share list fails a zero-divisor check,
the reveal loop raises `ZeroDivisionError`. -/
lemma revealF_not_ok {F : Type} [Field F] [DecidableEq F]
    (shares : List (F × F)) (hne : shares ≠ [])
    (hbad : ∃ i ∈ List.range shares.length,
      (shares.map Prod.fst).getD i 0 = 0 ∨
        lagrangeDenom (shares.map Prod.fst) shares.length i = 0) :
    revealF shares = .error .zeroDivisionError := by
  cases hfl : revealF shares with
  | ok v =>
    exfalso
    unfold revealF at hfl
    rw [if_neg (by simp [List.isEmpty_iff, hne])] at hfl
    obtain ⟨i, hi, hb⟩ := hbad
    have hchecks := foldlM_revealStep_ok_imp _ _ _ _ _ _ _ hfl i hi
    rcases hb with hb | hb
    · exact hchecks.1 hb
    · exact hchecks.2 hb
  | error e =>
    have hfl2 := hfl
    unfold revealF at hfl2
    rw [if_neg (by simp [List.isEmpty_iff, hne])] at hfl2
    rw [foldlM_revealStep_error_eq _ _ _ _ _ _ _ hfl2]

/-- `reveal` on a single in-range share `(x, v)` with `1 ≤ x < p` returns
`v`. -/
lemma revealZ_singleton (p : ℕ) [Fact p.Prime] (x v : ℕ) (hx1 : 1 ≤ x)
    (hxp : x < p) (hv : v < p) : revealZ p [(x, v)] = .ok v := by
  have hx0 : ((x : ZMod p)) ≠ 0 := by
    intro h
    have hdvd := (ZMod.natCast_zmod_eq_zero_iff_dvd x p).mp h
    have := Nat.le_of_dvd (by omega) hdvd
    omega
  rw [revealZ_of_inrange p [(x, v)] (by intro s hs; simp at hs; simp [hs, hxp, hv])]
  have h1 := revealF_ok_sum [((x : ZMod p), (v : ZMod p))] (by simp)
    (by intro s hs; simp at hs; simp [hs, hx0]) (by simp)
  simp only [List.map_cons, List.map_nil]
  rw [h1]
  have hlen : ([((x : ZMod p), (v : ZMod p))] : List (ZMod p × ZMod p)).length
      = 1 := rfl
  rw [hlen, Finset.sum_range_one]
  have hd : lagrangeDenom ([((x : ZMod p), (v : ZMod p))].map Prod.fst) 1 0 =
      1 := rfl
  have hy : ([((x : ZMod p), (v : ZMod p))].map Prod.snd).getD 0 0 =
      (v : ZMod p) := rfl
  have hx : ([((x : ZMod p), (v : ZMod p))].map Prod.fst).getD 0 0 =
      (x : ZMod p) := rfl
  have hprod : ([((x : ZMod p), (v : ZMod p))].map Prod.fst).foldl (· * ·) 1 =
      (x : ZMod p) := by
    show (1 : ZMod p) * (x : ZMod p) = (x : ZMod p)
    rw [one_mul]
  simp only [List.length_cons, List.length_nil, hd, hy, hx, hprod]
  rw [div_one, div_self hx0, mul_one]
  show Except.ok ((v : ZMod p)).val = Except.ok v
  rw [ZMod.val_cast_of_lt hv]

/-- C1: the round-trip claim fails on the code.  Over `GF(3)` with
`k = n = 2`, `secret = 1` and random coefficient drawn as `0`, `share`
yields `[(1, 1), (2, 1)]` (the constant polynomial `1`), yet `reveal` on
those `k = 2` shares returns `2 = −1 mod 3`, not the secret `1`: the
numerator shortcut omits the negation of each `xⱼ`, so over odd
characteristic an even number of shares reconstructs `−secret`. -/
theorem roundtrip_fails_gf3_even_k :
    shareZ 3 [0, 0] 2 2 1 = .ok [(1, 1), (2, 1)] ∧
      revealZ 3 [(1, 1), (2, 1)] = .ok 2 ∧ (2 : ℕ) ≠ 1 := by
  refine ⟨by decide, ?_, by decide⟩
  rw [revealZ_eq_revealZP 3 (by norm_num)]
  decide

/-- C2: the spec's concrete scenario fails on the code.  With order 251,
`k = 4`, `n = 5`, `secret = 100` and all random coefficients drawn as `0`,
`share` does produce the 5 pairs with `x = 1..5`, but `reveal` on the
first 4 of them returns `151 = −100 mod 251`, not `100`. -/
theorem concrete_gf251_reveal_returns_151 :
    shareZ 251 [0, 0, 0, 0] 4 5 100 =
        .ok [(1, 100), (2, 100), (3, 100), (4, 100), (5, 100)] ∧
      revealZ 251 [(1, 100), (2, 100), (3, 100), (4, 100)] = .ok 151 ∧
      (151 : ℕ) ≠ 100 := by
  refine ⟨by decide, ?_, by decide⟩
  rw [revealZ_eq_revealZP 251 (by norm_num)]
  decide

/-- C3 counterexample: over `ZMod 3` on the two shares `(1, 1), (2, 1)`
(the constant polynomial `1`), the shortcut-based `reveal` returns `2`
while the direct Lagrange interpolation at 0 returns `1`, so the claimed
equality fails for this field characteristic. -/
theorem shortcut_differs_from_direct_gf3 :
    revealF [((1 : ZMod 3), 1), (2, 1)] = .ok 2 ∧
      revealDirect [((1 : ZMod 3), 1), (2, 1)] = 1 ∧ (2 : ZMod 3) ≠ 1 := by
  refine ⟨?_, ?_, by decide⟩
  · rw [revealF_eq_revealFP 3 (by norm_num)]
    decide
  · rw [revealDirect_eq_revealDirectP 3 (by norm_num)]
    decide

/-- Witness for C3's amended theorem at a concrete input. -/
theorem revealF_eq_sign_mul_revealDirect_witness :
    revealF [((1 : ZMod 3), 1), (2, 1)] =
      .ok ((-1) ^ ((2 : ℕ) - 1) * revealDirect [((1 : ZMod 3), 1), (2, 1)]) :=
  revealF_eq_sign_mul_revealDirect [((1 : ZMod 3), 1), (2, 1)] (by decide)
    (by decide) (by decide)

/-- C4: for valid `k`, `n`, `secret`, `share` returns exactly `n` pairs
whose evaluation points are `1, 2, …, n` in order, and never issues the
point `x = 0`. -/
theorem share_points_one_to_n (p : ℕ) [Fact p.Prime] (rand : List (ZMod p))
    (k n secret : ℕ) (hk : 1 ≤ k) (_hkn : k ≤ n) (hs : secret < p) :
    ∃ l, shareZ p rand k n secret = .ok l ∧ l.length = n ∧
      l.map Prod.fst = List.range' 1 n ∧ 0 ∉ l.map Prod.fst := by
  have hfst : ((shareF rand k n ((secret : ZMod p))).map
      (fun s => (s.1, s.2.val))).map Prod.fst = List.range' 1 n := by
    rw [List.map_map]
    exact shareF_map_fst rand k n _
  refine ⟨_, shareZ_ok p rand k n secret (by omega) hs, ?_, hfst, ?_⟩
  · rw [List.length_map]
    unfold shareF
    rw [List.length_map]
    simp
  · rw [hfst]
    intro h
    have := List.mem_range'_1.mp h
    omega

/-- Witness for C4 at a concrete input. -/
theorem share_points_one_to_n_witness :
    ∃ l, shareZ 5 [0, 0] 2 3 4 = .ok l ∧ l.length = 3 ∧
      l.map Prod.fst = List.range' 1 3 ∧ 0 ∉ l.map Prod.fst :=
  share_points_one_to_n 5 [0, 0] 2 3 4 (by norm_num) (by norm_num)
    (by norm_num)

/-- C5: homomorphic additivity fails on the code.  Over `GF(3)` with
`k = n = 2`, sharing `s1 = s2 = 1` with zero random coefficients gives
shares `[(1, 1), (2, 1)]` twice; summing the y-values pointwise in the
field gives `[(1, 2), (2, 2)]`, but `reveal` returns `1 = −2 mod 3`,
not `s1 + s2 = 2` (the same missing-negation sign bug as C1). -/
theorem homomorphic_additivity_fails_gf3 :
    shareZ 3 [0, 0] 2 2 1 = .ok [(1, 1), (2, 1)] ∧
      List.zipWith (fun s t : ℕ × ℕ => (s.1, (s.2 + t.2) % 3))
          [(1, 1), (2, 1)] [(1, 1), (2, 1)] = [(1, 2), (2, 2)] ∧
      revealZ 3 [(1, 2), (2, 2)] = .ok 1 ∧ (1 + 1) % 3 = 2 ∧ (1 : ℕ) ≠ 2 := by
  refine ⟨by decide, by decide, ?_, by decide, by decide⟩
  rw [revealZ_eq_revealZP 3 (by norm_num)]
  decide

/-- C6 counterexample: with order 2, `k = 1`, `n = 2` the second share is
`(2, 1)`, and `reveal` on that single share raises `ValueError` (the
evaluation point 2 is outside `[0, 2)`), so not every `n ≥ 1` works. -/
theorem k1_share_out_of_range_fails :
    shareZ 2 [0] 1 2 1 = .ok [(1, 1), (2, 1)] ∧
      revealZ 2 [(2, 1)] = .error .valueError := by
  constructor <;> decide

/-- C6 (amended): over a prime order `p`, for `1 ≤ n ≤ p − 1` and any
draw of the one random coefficient, every single share produced by
`share(1, n, secret)` reveals the secret on its own (the polynomial is
constant). -/
theorem k1_single_share_reveals_secret (p : ℕ) [Fact p.Prime] (c : ZMod p)
    (n secret : ℕ) (hs : secret < p) (hn : n < p) (l : List (ℕ × ℕ))
    (hl : shareZ p [c] 1 n secret = .ok l) (sh : ℕ × ℕ) (hsh : sh ∈ l) :
    revealZ p [sh] = .ok secret := by
  rw [shareZ_ok p [c] 1 n secret (by omega) hs] at hl
  have hleq : l = (shareF [c] 1 n ((secret : ZMod p))).map
      (fun s => (s.1, s.2.val)) := (Except.ok.inj hl).symm
  subst hleq
  rw [List.mem_map] at hsh
  obtain ⟨s0, hs0, rfl⟩ := hsh
  unfold shareF at hs0
  rw [List.mem_map] at hs0
  obtain ⟨x, hx, rfl⟩ := hs0
  have hxr := List.mem_range'_1.mp hx
  show revealZ p [(x, (polyEval ([c].set 0 ((secret : ZMod p))) x).val)] =
    .ok secret
  have hset : ([c].set 0 ((secret : ZMod p))) = [((secret : ZMod p))] := rfl
  rw [hset, polyEval_singleton, ZMod.val_cast_of_lt hs]
  exact revealZ_singleton p x secret (by omega) (by omega) hs

/-- Witness for C6's amended theorem at a concrete input. -/
theorem k1_single_share_reveals_secret_witness :
    revealZ 5 [(2, 3)] = .ok 3 :=
  k1_single_share_reveals_secret 5 0 2 3 (by norm_num) (by norm_num)
    [(1, 3), (2, 3)] (by decide) (2, 3) (by decide)

/-- C7 counterexample: with `n = 1 < 2 = k` and a valid secret, `share`
signals no error at all and returns a (1-element) share list. -/
theorem share_accepts_n_lt_k : shareZ 5 [0, 0] 2 1 0 = .ok [(1, 0)] := by
  decide

/-- C7 (amended): `share` raises `ValueError` when the secret is outside
`[0, order)` and `IndexError` when `k < 1` (both without returning a share
list), but performs no `k ≤ n` validation: for any `k ≥ 1` and valid
secret it returns a list of `n` shares, even when `n < k`. -/
theorem share_validation_behaviour (p : ℕ) [Fact p.Prime]
    (rand : List (ZMod p)) (k n secret : ℕ) :
    (p ≤ secret → shareZ p rand k n secret = .error .valueError) ∧
      (secret < p → k = 0 → shareZ p rand k n secret = .error .indexError) ∧
      (secret < p → 1 ≤ k →
        ∃ l, shareZ p rand k n secret = .ok l ∧ l.length = n) := by
  refine ⟨?_, ?_, ?_⟩
  · intro h
    unfold shareZ
    rw [if_pos h]
  · intro hs hk
    unfold shareZ
    rw [if_neg (by omega), if_pos hk]
  · intro hs hk
    refine ⟨_, shareZ_ok p rand k n secret (by omega) hs, ?_⟩
    rw [List.length_map]
    unfold shareF
    rw [List.length_map]
    simp

/-- Witness for C7's amended theorem at concrete inputs, including the
`n < k` case returning a share list. -/
theorem share_validation_behaviour_witness :
    shareZ 5 ([] : List (ZMod 5)) 0 0 7 = .error .valueError ∧
      shareZ 5 ([] : List (ZMod 5)) 0 3 2 = .error .indexError ∧
      ∃ l, shareZ 5 [(0 : ZMod 5), 0] 2 1 3 = .ok l ∧ l.length = 1 :=
  ⟨(share_validation_behaviour 5 [] 0 0 7).1 (by norm_num),
    (share_validation_behaviour 5 [] 0 3 2).2.1 (by norm_num) rfl,
    (share_validation_behaviour 5 [0, 0] 2 1 3).2.2 (by norm_num)
      (by norm_num)⟩

/-- C8: `reveal` raises `ValueError` on an empty share list (the unpack of
`zip(*...)` fails) and `ZeroDivisionError` whenever two supplied in-range
shares have the same `x` value (the denominator acquires the factor
`xᵢ − xⱼ = 0`); in either case no secret value is returned, and the two
failures carry distinguishable error values. -/
theorem reveal_empty_and_duplicate_error (p : ℕ) [Fact p.Prime]
    (shares : List (ℕ × ℕ)) :
    (shares = [] → revealZ p shares = .error .valueError) ∧
      ((∀ s ∈ shares, s.1 < p ∧ s.2 < p) →
        ∀ i j, ∀ (hi : i < shares.length) (hj : j < shares.length),
          i ≠ j → (shares[i]).1 = (shares[j]).1 →
          revealZ p shares = .error .zeroDivisionError) := by
  constructor
  · intro h
    subst h
    rfl
  · intro hrange i j hi hj hij heq
    rw [revealZ_of_inrange p shares hrange]
    have hne : shares.map (fun s => ((s.1 : ZMod p), (s.2 : ZMod p))) ≠ [] := by
      rw [Ne, List.map_eq_nil_iff]
      exact List.ne_nil_of_length_pos (by omega)
    have hiL : i < (shares.map
        (fun s => ((s.1 : ZMod p), (s.2 : ZMod p)))).length := by
      rw [List.length_map]
      exact hi
    have hjL : j < (shares.map
        (fun s => ((s.1 : ZMod p), (s.2 : ZMod p)))).length := by
      rw [List.length_map]
      exact hj
    have hbad : ∃ i' ∈ List.range (shares.map
        (fun s => ((s.1 : ZMod p), (s.2 : ZMod p)))).length,
        ((shares.map (fun s => ((s.1 : ZMod p), (s.2 : ZMod p)))).map
          Prod.fst).getD i' 0 = 0 ∨
        lagrangeDenom ((shares.map
            (fun s => ((s.1 : ZMod p), (s.2 : ZMod p)))).map Prod.fst)
          (shares.map (fun s => ((s.1 : ZMod p), (s.2 : ZMod p)))).length
          i' = 0 := by
      refine ⟨i, List.mem_range.mpr hiL, Or.inr ?_⟩
      rw [lagrangeDenom_eq_prod]
      apply Finset.prod_eq_zero (Finset.mem_erase.mpr
        ⟨Ne.symm hij, Finset.mem_range.mpr hjL⟩)
      rw [getD_map_fst _ i hiL, getD_map_fst _ j hjL, List.getElem_map,
        List.getElem_map]
      show ((shares[i].1 : ZMod p)) - ((shares[j].1 : ZMod p)) = 0
      rw [heq, sub_self]
    rw [revealF_not_ok _ hne hbad]
    rfl

/-- Witness for C8 at concrete inputs: the empty list and a duplicated
evaluation point. -/
theorem reveal_empty_and_duplicate_error_witness :
    revealZ 5 [] = .error .valueError ∧
      revealZ 5 [(1, 2), (1, 3)] = .error .zeroDivisionError :=
  ⟨(reveal_empty_and_duplicate_error 5 []).1 rfl,
    (reveal_empty_and_duplicate_error 5 [(1, 2), (1, 3)]).2 (by decide) 0 1
      (by norm_num) (by norm_num) (by norm_num) rfl⟩

/-- C9: on any non-empty list of shares whose `x`-coordinates are non-zero
and pairwise distinct, `reveal` returns a field element and raises no
error — the function performs no sufficiency check, so this holds no
matter how few shares are supplied relative to any threshold `k`. -/
theorem reveal_ok_no_sufficiency_check {F : Type} [Field F] [DecidableEq F]
    (shares : List (F × F)) (hne : shares ≠ [])
    (h0 : ∀ s ∈ shares, s.1 ≠ 0)
    (hdist : List.Pairwise (fun s t => s.1 ≠ t.1) shares) :
    ∃ v, revealF shares = .ok v :=
  ⟨_, revealF_ok_sum shares hne h0 hdist⟩

/-- Witness for C9: a single share (fewer than any threshold `k ≥ 2`)
still yields a value. -/
theorem reveal_ok_no_sufficiency_check_witness :
    ∃ v, revealF [((1 : ZMod 5), (2 : ZMod 5))] = .ok v :=
  reveal_ok_no_sufficiency_check [((1 : ZMod 5), (2 : ZMod 5))] (by decide)
    (by decide) (by decide)

/-- C10: if any supplied in-range share has `x = 0`, `reveal` raises
`ZeroDivisionError` from the field layer (the shortcut divides the full
product by `xᵢ = 0`) instead of returning a value. -/
theorem reveal_zero_point_division_error (p : ℕ) [Fact p.Prime]
    (shares : List (ℕ × ℕ)) (hrange : ∀ s ∈ shares, s.1 < p ∧ s.2 < p)
    (y : ℕ) (hmem : (0, y) ∈ shares) :
    revealZ p shares = .error .zeroDivisionError := by
  obtain ⟨i, hi, hieq⟩ := List.getElem_of_mem hmem
  rw [revealZ_of_inrange p shares hrange]
  have hne : shares.map (fun s => ((s.1 : ZMod p), (s.2 : ZMod p))) ≠ [] := by
    rw [Ne, List.map_eq_nil_iff]
    exact List.ne_nil_of_mem hmem
  have hiL : i < (shares.map
      (fun s => ((s.1 : ZMod p), (s.2 : ZMod p)))).length := by
    rw [List.length_map]
    exact hi
  have hbad : ∃ i' ∈ List.range (shares.map
      (fun s => ((s.1 : ZMod p), (s.2 : ZMod p)))).length,
      ((shares.map (fun s => ((s.1 : ZMod p), (s.2 : ZMod p)))).map
        Prod.fst).getD i' 0 = 0 ∨
      lagrangeDenom ((shares.map
          (fun s => ((s.1 : ZMod p), (s.2 : ZMod p)))).map Prod.fst)
        (shares.map (fun s => ((s.1 : ZMod p), (s.2 : ZMod p)))).length
        i' = 0 := by
    refine ⟨i, List.mem_range.mpr hiL, Or.inl ?_⟩
    rw [getD_map_fst _ i hiL, List.getElem_map, hieq]
    show (((0 : ℕ) : ZMod p)) = 0
    rw [Nat.cast_zero]
  rw [revealF_not_ok _ hne hbad]
  rfl

/-- Witness for C10 at a concrete input. -/
theorem reveal_zero_point_division_error_witness :
    revealZ 5 [(0, 3)] = .error .zeroDivisionError :=
  reveal_zero_point_division_error 5 [(0, 3)] (by decide) 3 (by decide)

end Shamir
